import Mathlib

/-!
Verification of the cngo transaction-logged key-value store.

The authoritative sources are the final iteration of the repository:
the store package (KVS, src/unnamed/part_000 lines 1-43), the logger
package (FileTransactionLogger, src/unnamed/part_000 lines 44-335) and
the replay driver (initTransactionLogger, src/unnamed/part_004).
Earlier iterations of the same design (part_001, part_002, part_003)
are superseded; where their behaviour differs it is noted in the
theorems below.

Modelling conventions: Go strings are lists of characters (the logs in
question are ASCII); Go channels are drained into lists (channel
capacity and blocking are not modelled); the uint64 sequence counter is
a Nat reduced mod 2^64 where the code increments it; the mutex in KVS
is elided since every claim is about the sequential semantics of the
operations; file output is the list of characters appended, and a
failed Fprintf is modelled as appending nothing.
-/

/-- Whitespace as recognised by Go fmt scanning (ASCII part): space,
tab, newline, vertical tab, form feed, carriage return. -/
def isWsChar (c : Char) : Bool :=
  c = ' ' || c = '\t' || c = '\n' || c = '\x0b' || c = '\x0c' || c = '\r'

/-- Decimal digit character, used to model the output of Fprintf %d. -/
def digitChar (n : Nat) : Char :=
  match n with
  | 0 => '0' | 1 => '1' | 2 => '2' | 3 => '3' | 4 => '4'
  | 5 => '5' | 6 => '6' | 7 => '7' | 8 => '8' | _ => '9'

/-- Numeric value of a decimal digit character. -/
def digitVal (c : Char) : Nat := c.toNat - 48

/-- Fuel-indexed decimal rendering of a Nat (fuel keeps the recursion
structural so that terms reduce in the kernel). -/
def natCharsAux : Nat → Nat → List Char
  | 0, _ => []
  | fuel + 1, n =>
    if n < 10 then [digitChar n]
    else natCharsAux fuel (n / 10) ++ [digitChar (n % 10)]

/-- Decimal rendering of a Nat, as printed by Fprintf %d. -/
def natChars (n : Nat) : List Char := natCharsAux (n + 1) n

/-- Decode a list of decimal digit characters, most significant first. -/
def decodeDigits (ds : List Char) : Nat :=
  List.foldl (fun a c => 10 * a + digitVal c) 0 ds

/-- Drop leading whitespace, as every fmt scanning verb (except %c)
does before reading its operand. -/
def skipWs (cs : List Char) : List Char := cs.dropWhile isWsChar

/-- Model of the Sscanf verb %d reading into an unsigned integer:
skip whitespace, then read a maximal nonempty run of decimal digits.
Fails (like Sscanf) when no digit is present.  Width-overflow of the
Go destination type is not modelled; all claims stay in range. -/
def scanNat (cs : List Char) : Option (Nat × List Char) :=
  if (skipWs cs).takeWhile Char.isDigit = [] then none
  else some (decodeDigits ((skipWs cs).takeWhile Char.isDigit),
    (skipWs cs).dropWhile Char.isDigit)

/-- Model of the Sscanf verb %s: skip whitespace, then read a maximal
nonempty run of non-whitespace characters; fails on empty. -/
def scanTok (cs : List Char) : Option (List Char × List Char) :=
  if (skipWs cs).takeWhile (fun c => !isWsChar c) = [] then none
  else some ((skipWs cs).takeWhile (fun c => !isWsChar c),
    (skipWs cs).dropWhile (fun c => !isWsChar c))

/-- Hex digit value accepted by net/url (0-9, a-f, A-F). -/
def hexVal (c : Char) : Option Nat :=
  if c.isDigit then some (c.toNat - 48)
  else if 'a' ≤ c && c ≤ 'f' then some (c.toNat - 87)
  else if 'A' ≤ c && c ≤ 'F' then some (c.toNat - 55)
  else none

/-- Model of net/url.QueryUnescape on a character list: %XX becomes the
encoded character, + becomes a space, a malformed % escape fails. -/
def queryUnescape : List Char → Option (List Char)
  | [] => some []
  | '%' :: rest =>
    match rest with
    | a :: b :: rest2 =>
      match hexVal a, hexVal b with
      | some x, some y => (queryUnescape rest2).map (fun t => Char.ofNat (16 * x + y) :: t)
      | _, _ => none
    | _ => none
  | '+' :: rest => (queryUnescape rest).map (fun t => ' ' :: t)
  | c :: rest => (queryUnescape rest).map (fun t => c :: t)

/-- Helper for splitLines: accumulates the current line (reversed). -/
def splitLinesAux (acc : List Char) : List Char → List (List Char)
  | [] => if acc.isEmpty then [] else [acc.reverse]
  | c :: rest =>
    if c = '\n' then acc.reverse :: splitLinesAux [] rest
    else splitLinesAux (c :: acc) rest

/-- Model of bufio.Scanner line splitting: tokens are the newline-free
pieces; a final piece without a terminating newline is still produced;
a trailing newline produces no extra empty token. -/
def splitLines (cs : List Char) : List (List Char) := splitLinesAux [] cs

/-- Event persistence data type (logger.Event, part_000 lines 56-62).
Sequence is a Go uint64 and EventType a byte; both are modelled as Nat
(the logger only produces the type codes 1 and 2). -/
structure Event where
  sequence : Nat
  eventType : Nat
  key : String
  value : String
deriving DecidableEq

/-- EventDelete code (iota const block, part_000 lines 67-72). -/
def EventDelete : Nat := 1

/-- EventPut code (iota const block, part_000 lines 67-72). -/
def EventPut : Nat := 2

/-- The Go error values the modelled operations can produce. -/
inductive GoError
  /-- store.ErrorNoSuchKey (part_000 line 15). -/
  | ErrorNoSuchKey
  /-- the transaction numbers out of sequence error (part_000 line 280). -/
  | outOfSequence
  /-- the value decoding failure error from QueryUnescape (part_000 line 286). -/
  | valueDecode
deriving DecidableEq

/-- KVS store state: the guarded map M (part_000 lines 9-12), with the
mutex elided (the claims concern sequential semantics). -/
abbrev KVS := String → Option String

/-- A freshly made store, KVS{M: make(map[string]string)}. -/
def emptyKVS : KVS := fun _ => none

/-- KVS.Get (part_000 lines 18-27), in state-passing form: it only
reads the map, so the returned state is the input state. -/
def KVS.Get (s : KVS) (k : String) : Except GoError String × KVS :=
  (match s k with
   | some v => Except.ok v
   | none => Except.error GoError.ErrorNoSuchKey, s)

/-- KVS.Put (part_000 lines 30-35): stores the value and returns nil. -/
def KVS.Put (s : KVS) (k v : String) : KVS × Option GoError :=
  (fun q => if q = k then some v else s q, none)

/-- KVS.Delete (part_000 lines 38-43): removes the key and returns nil. -/
def KVS.Delete (s : KVS) (k : String) : KVS × Option GoError :=
  (fun q => if q = k then none else s q, none)

/-- WritePut (part_000 lines 310-313): enqueues a put Event (sequence
zero; the worker assigns the real sequence).  The channel is modelled
as the queue of pending intents. -/
def WritePut (q : List Event) (k v : String) : List Event :=
  q ++ [{ sequence := 0, eventType := EventPut, key := k, value := v }]

/-- WriteDelete (part_000 lines 316-319): enqueues a delete Event with
the zero Value. -/
def WriteDelete (q : List Event) (k : String) : List Event :=
  q ++ [{ sequence := 0, eventType := EventDelete, key := k, value := "" }]

/-- A client-side store operation. -/
inductive Op
  | put (k v : String)
  | del (k : String)
deriving DecidableEq

/-- The key an operation touches. -/
def opKey : Op → String
  | Op.put k _ => k
  | Op.del k => k

/-- The Event each operation enqueues (as built by WritePut and
WriteDelete). -/
def opEvent : Op → Event
  | Op.put k v => { sequence := 0, eventType := EventPut, key := k, value := v }
  | Op.del k => { sequence := 0, eventType := EventDelete, key := k, value := "" }

/-- Enqueue a list of operations through WritePut / WriteDelete. -/
def enqueueOps (ops : List Op) : List Event :=
  ops.foldl
    (fun q op =>
      match op with
      | Op.put k v => WritePut q k v
      | Op.del k => WriteDelete q k) []

/-- Apply one operation directly to the store (the handlers in
part_004 call kvs.Put / kvs.Delete). -/
def applyOp (s : KVS) : Op → KVS
  | Op.put k v => (KVS.Put s k v).1
  | Op.del k => (KVS.Delete s k).1

/-- Apply a list of operations directly to the store, in order. -/
def applyOps (s : KVS) (ops : List Op) : KVS := ops.foldl applyOp s

/-- Apply one replayed Event to the store: the switch on EventType in
initTransactionLogger (part_004 lines 36-41); unknown codes do nothing. -/
def applyEvent (s : KVS) (e : Event) : KVS :=
  if e.eventType = EventDelete then (KVS.Delete s e.key).1
  else if e.eventType = EventPut then (KVS.Put s e.key e.value).1
  else s

/-- One line scanned by fmt.Sscanf(line, format, seq, type, key, value)
with the tab-separated four-verb format as in part_000 line 276.  The
returned error is ignored there, so fields whose verb fails keep their
previous (stale) values from the loop variable e; this function returns
the resulting event. -/
def sscanfLine (e : Event) (cs : List Char) : Event :=
  match scanNat cs with
  | none => e
  | some (sq, r1) =>
    match scanNat r1 with
    | none => { e with sequence := sq }
    | some (ty, r2) =>
      match scanTok r2 with
      | none => { e with sequence := sq, eventType := ty }
      | some (k, r3) =>
        match scanTok r3 with
        | none => { e with sequence := sq, eventType := ty, key := String.mk k }
        | some (v, _) =>
          { sequence := sq, eventType := ty, key := String.mk k, value := String.mk v }

/-- The replay loop of FileTransactionLogger.ReadEvents (part_000 lines
267-299): for each line, scan the fields into e (ignoring the scan
error), reject a sequence number not above lastSequence, query-unescape
the value (failing recovery on a bad escape), advance lastSequence and
emit the event.  Returns the emitted events and the terminal error. -/
def readLines (last : Nat) (e : Event) :
    List (List Char) → List Event × Option GoError
  | [] => ([], none)
  | line :: rest =>
    let e1 := sscanfLine e line
    if e1.sequence ≤ last then ([], some GoError.outOfSequence)
    else
      match queryUnescape e1.value.data with
      | none => ([], some GoError.valueDecode)
      | some uv =>
        let e2 : Event := { e1 with value := String.mk uv }
        let r := readLines e1.sequence e2 rest
        (e2 :: r.1, r.2)

/-- FileTransactionLogger.ReadEvents on a file content, from a fresh
logger (lastSequence 0, zero-valued loop variable e). -/
def ReadEvents (content : List Char) : List Event × Option GoError :=
  readLines 0 { sequence := 0, eventType := 0, key := "", value := "" }
    (splitLines content)

/-- The record body Fprintf writes for sequence number sq and event e:
sequence TAB type TAB key TAB value, without the final newline
(part_000 lines 247-250). -/
def renderLine (sq : Nat) (e : Event) : List Char :=
  natChars sq ++ '\t' :: natChars e.eventType ++ '\t' :: e.key.data
    ++ '\t' :: e.value.data

/-- A full record as written to the file, newline-terminated. -/
def renderEvt (sq : Nat) (e : Event) : List Char := renderLine sq e ++ ['\n']

/-- 2^64, the modulus of the Go uint64 sequence counter. -/
def U64 : Nat := 2 ^ 64

/-- lastSequence++ on a uint64. -/
def bumpSeq (last : Nat) : Nat := (last + 1) % U64

/-- The value of the sequence counter after n increments. -/
def seqAfter (last : Nat) : Nat → Nat
  | 0 => last
  | n + 1 => seqAfter (bumpSeq last) n

/-- The drain loop of FileTransactionLogger.Run (part_000 lines
243-258): each queued event, paired with whether its Fprintf succeeds,
is assigned the next sequence number; the worker neither retries nor
exits on failure.  The result is the trace of attempted appends in
order: assigned sequence, event, outcome. -/
def runDrain (last : Nat) : List (Event × Bool) → List (Nat × Event × Bool)
  | [] => []
  | (e, ok) :: rest => (bumpSeq last, e, ok) :: runDrain (bumpSeq last) rest

/-- The file content produced by a drain trace: each successful append
contributes its rendered record; a failed Fprintf appends nothing. -/
def drainContent (tr : List (Nat × Event × Bool)) : List Char :=
  (tr.map fun t => if t.2.2 then renderEvt t.1 t.2.1 else []).flatten

/-- The failures pushed onto the errors channel by the worker, as the
(sequence, event) pairs whose append failed, in order. -/
def drainErrors (tr : List (Nat × Event × Bool)) : List (Nat × Event) :=
  tr.filterMap fun t => if t.2.2 then none else some (t.1, t.2.1)

/-- The most recent operation in the history that mutates key k. -/
def lastMutOf (k : String) : List Op → Option Op
  | [] => none
  | op :: ops =>
    match lastMutOf k ops with
    | some m => some m
    | none => if opKey op = k then some op else none

/-- The sequence number of the last event of a list (default d). -/
def lastSeqD (es : List Event) (d : Nat) : Nat :=
  (es.map (fun e => e.sequence)).getLastD d

/-- Strict ascent of a list of sequence numbers over a running
counter: the property the replay sanity check enforces. -/
def seqAscending (last : Nat) : List Nat → Bool
  | [] => true
  | n :: rest => decide (last < n) && seqAscending n rest

/-- The record body a log file holds for an event that carries its own
sequence number (the shape ReadEvents re-parses). -/
def recordLine (e : Event) : List Char := renderLine e.sequence e

/-- A log file made of newline-terminated records, one per event. -/
def recordFile (es : List Event) : List Char :=
  (es.map (fun e => recordLine e ++ ['\n'])).flatten

/-- A nonempty string with no whitespace characters: such a field is
scanned back verbatim by the %s verb. -/
def goodTok (s : String) : Prop :=
  s.data ≠ [] ∧ ∀ c ∈ s.data, isWsChar c = false

/-- A string left unchanged by query-unescaping (in particular one
without percent or plus characters). -/
def unescId (s : String) : Prop := queryUnescape s.data = some s.data

/-- Operations whose serialized records survive the tab-separated
encoding and the query-unescape on replay. -/
def goodOp : Op → Prop
  | Op.put k v => goodTok k ∧ goodTok v ∧ unescId v
  | Op.del k => goodTok k

/-- Events whose rendered record is parsed back exactly on replay. -/
def wfEvent (e : Event) : Prop :=
  goodTok e.key ∧ goodTok e.value ∧ unescId e.value ∧
    e.sequence < U64 ∧ e.eventType < 256

instance (s : String) : Decidable (goodTok s) := by
  unfold goodTok; infer_instance

instance (s : String) : Decidable (unescId s) := by
  unfold unescId; infer_instance

instance (op : Op) : Decidable (goodOp op) := by
  cases op <;> (unfold goodOp; infer_instance)

instance (e : Event) : Decidable (wfEvent e) := by
  unfold wfEvent; infer_instance

lemma natCharsAux_congr : ∀ f g n, n < f → n < g → natCharsAux f n = natCharsAux g n := by
  intro f
  induction f with
  | zero => intro g n hf; omega
  | succ f ih =>
    intro g n hf hg
    cases g with
    | zero => omega
    | succ g =>
      simp only [natCharsAux]
      by_cases h : n < 10
      · simp [h]
      · have hn : 0 < n := by omega
        have hdiv : n / 10 < n := Nat.div_lt_self hn (by omega)
        simp only [h, if_false]
        rw [ih g (n / 10) (by omega) (by omega)]

lemma natChars_eq (n : Nat) :
    natChars n = if n < 10 then [digitChar n]
      else natChars (n / 10) ++ [digitChar (n % 10)] := by
  unfold natChars
  rw [natCharsAux]
  by_cases h : n < 10
  · simp [h]
  · have hn : 0 < n := by omega
    have hdiv : n / 10 < n := Nat.div_lt_self hn (by omega)
    simp only [h, if_false]
    rw [natCharsAux_congr n (n / 10 + 1) (n / 10) (by omega) (by omega)]

lemma digitChar_isDigit (n : Nat) (h : n < 10) : (digitChar n).isDigit = true := by
  interval_cases n <;> rfl

lemma digitVal_digitChar (n : Nat) (h : n < 10) : digitVal (digitChar n) = n := by
  interval_cases n <;> rfl

lemma natChars_digits (n : Nat) : ∀ c ∈ natChars n, c.isDigit = true := by
  induction n using Nat.strong_induction_on with
  | _ n ih =>
    rw [natChars_eq]
    by_cases h : n < 10
    · simp only [h, if_true, List.mem_singleton]
      intro c hc; subst hc; exact digitChar_isDigit n h
    · have hn : 0 < n := by omega
      have hdiv : n / 10 < n := Nat.div_lt_self hn (by omega)
      simp only [h, if_false, List.mem_append, List.mem_singleton]
      intro c hc
      rcases hc with hc | hc
      · exact ih (n / 10) hdiv c hc
      · subst hc; exact digitChar_isDigit (n % 10) (Nat.mod_lt n (by omega))

lemma natChars_ne_nil (n : Nat) : natChars n ≠ [] := by
  rw [natChars_eq]
  by_cases h : n < 10 <;> simp [h]

lemma decodeDigits_append_one (ds : List Char) (c : Char) :
    decodeDigits (ds ++ [c]) = 10 * decodeDigits ds + digitVal c := by
  unfold decodeDigits
  rw [List.foldl_append]
  rfl

lemma decode_natChars (n : Nat) : decodeDigits (natChars n) = n := by
  induction n using Nat.strong_induction_on with
  | _ n ih =>
    rw [natChars_eq]
    by_cases h : n < 10
    · simp only [h, if_true]
      show 10 * 0 + digitVal (digitChar n) = n
      rw [digitVal_digitChar n h]; omega
    · have hn : 0 < n := by omega
      have hdiv : n / 10 < n := Nat.div_lt_self hn (by omega)
      simp only [h, if_false]
      rw [decodeDigits_append_one, ih (n / 10) hdiv,
        digitVal_digitChar (n % 10) (Nat.mod_lt n (by omega))]
      omega

lemma ws_not_digit (c : Char) (h : isWsChar c = true) : c.isDigit = false := by
  simp only [isWsChar, Bool.or_eq_true, decide_eq_true_eq] at h
  rcases h with ((((h | h) | h) | h) | h) | h <;> subst h <;> rfl

lemma digit_not_ws (c : Char) (h : c.isDigit = true) : isWsChar c = false := by
  cases hw : isWsChar c
  · rfl
  · rw [ws_not_digit c hw] at h; exact absurd h (by simp)

lemma takeWhile_all_append (p : Char → Bool) :
    ∀ (l : List Char) (x : Char) (r : List Char), (∀ c ∈ l, p c = true) → p x = false →
      (l ++ x :: r).takeWhile p = l ∧ (l ++ x :: r).dropWhile p = x :: r := by
  intro l
  induction l with
  | nil =>
    intro x r _ hx
    constructor
    · simp [List.takeWhile_cons, hx]
    · simp [List.dropWhile_cons, hx]
  | cons c l ih =>
    intro x r hl hx
    have hc : p c = true := hl c (by simp)
    have ihr := ih x r (fun d hd => hl d (by simp [hd])) hx
    constructor
    · simp only [List.cons_append, List.takeWhile_cons, hc, if_true, ihr.1]
    · simp only [List.cons_append, List.dropWhile_cons, hc, if_true, ihr.2]

lemma takeWhile_all (p : Char → Bool) :
    ∀ (l : List Char), (∀ c ∈ l, p c = true) →
      l.takeWhile p = l ∧ l.dropWhile p = [] := by
  intro l
  induction l with
  | nil => exact fun _ => ⟨rfl, rfl⟩
  | cons c l ih =>
    intro hl
    have hc : p c = true := hl c (by simp)
    have ihr := ih (fun d hd => hl d (by simp [hd]))
    constructor
    · simp only [List.takeWhile_cons, hc, if_true, ihr.1]
    · simp only [List.dropWhile_cons, hc, if_true, ihr.2]

lemma skipWs_cons_nonws {c : Char} (l : List Char) (h : isWsChar c = false) :
    skipWs (c :: l) = c :: l := by
  unfold skipWs
  simp [List.dropWhile_cons, h]

lemma skipWs_cons_tab (l : List Char) : skipWs ('\t' :: l) = skipWs l := by
  have h : isWsChar '\t' = true := rfl
  unfold skipWs
  rw [List.dropWhile_cons, if_pos h]

lemma scanNat_natChars (n : Nat) (r : List Char) :
    scanNat (natChars n ++ '\t' :: r) = some (n, '\t' :: r) := by
  obtain ⟨d, ds, hds⟩ : ∃ d ds, natChars n = d :: ds := by
    cases h : natChars n with
    | nil => exact absurd h (natChars_ne_nil n)
    | cons d ds => exact ⟨d, ds, rfl⟩
  have hdig : ∀ c ∈ natChars n, c.isDigit = true := natChars_digits n
  have htab : ('\t').isDigit = false := rfl
  have h1 := takeWhile_all_append Char.isDigit (natChars n) '\t' r hdig htab
  unfold scanNat
  rw [hds] at h1 ⊢
  rw [List.cons_append, skipWs_cons_nonws _ (digit_not_ws d (hdig d (by rw [hds]; simp)))]
  rw [← List.cons_append, h1.1, h1.2]
  simp only [List.cons_ne_nil, if_false, ← hds, decode_natChars]
  rw [if_neg (natChars_ne_nil n)]

lemma scanNat_tab (l : List Char) : scanNat ('\t' :: l) = scanNat l := by
  unfold scanNat
  rw [skipWs_cons_tab]

lemma scanTok_tab (l : List Char) : scanTok ('\t' :: l) = scanTok l := by
  unfold scanTok
  rw [skipWs_cons_tab]

lemma scanTok_tok_append (k : List Char) (r : List Char) (hne : k ≠ [])
    (hk : ∀ c ∈ k, isWsChar c = false) :
    scanTok (k ++ '\t' :: r) = some (k, '\t' :: r) := by
  obtain ⟨d, ds, hds⟩ : ∃ d ds, k = d :: ds := by
    cases h : k with
    | nil => exact absurd h hne
    | cons d ds => exact ⟨d, ds, rfl⟩
  have hall : ∀ c ∈ k, (fun c => !isWsChar c) c = true := by
    intro c hc; simp [hk c hc]
  have htab : (fun c => !isWsChar c) '\t' = false := rfl
  have h1 := takeWhile_all_append (fun c => !isWsChar c) k '\t' r hall htab
  unfold scanTok
  rw [hds] at h1 ⊢
  rw [List.cons_append, skipWs_cons_nonws _ (hk d (by rw [hds]; simp))]
  rw [← List.cons_append, h1.1, h1.2]
  simp only [List.cons_ne_nil, if_false]

lemma scanTok_tok_end (k : List Char) (hne : k ≠ [])
    (hk : ∀ c ∈ k, isWsChar c = false) :
    scanTok k = some (k, []) := by
  obtain ⟨d, ds, hds⟩ : ∃ d ds, k = d :: ds := by
    cases h : k with
    | nil => exact absurd h hne
    | cons d ds => exact ⟨d, ds, rfl⟩
  have hall : ∀ c ∈ k, (fun c => !isWsChar c) c = true := by
    intro c hc; simp [hk c hc]
  have h1 := takeWhile_all (fun c => !isWsChar c) k hall
  unfold scanTok
  rw [hds] at h1 ⊢
  rw [skipWs_cons_nonws _ (hk d (by rw [hds]; simp))]
  rw [h1.1, h1.2]
  simp only [List.cons_ne_nil, if_false]

lemma scanTok_tab_only : scanTok ['\t'] = none := rfl

lemma scanTok_nil : scanTok [] = none := rfl

lemma sscanfLine_full (stale : Event) (sq ty : Nat) (k v : String)
    (hk : goodTok k) (hv : goodTok v) :
    sscanfLine stale
      (natChars sq ++ '\t' :: natChars ty ++ '\t' :: k.data ++ '\t' :: v.data)
      = { sequence := sq, eventType := ty, key := k, value := v } := by
  simp only [sscanfLine, List.cons_append, List.append_assoc,
    scanNat_natChars, scanNat_tab, scanTok_tab,
    scanTok_tok_append k.data v.data hk.1 hk.2,
    scanTok_tok_end v.data hv.1 hv.2]

lemma sscanfLine_noValue (stale : Event) (sq ty : Nat) (k : String)
    (hk : goodTok k) :
    sscanfLine stale (natChars sq ++ '\t' :: natChars ty ++ '\t' :: k.data ++ ['\t'])
      = { sequence := sq, eventType := ty, key := k, value := stale.value } := by
  simp only [sscanfLine, List.cons_append, List.append_assoc,
    scanNat_natChars, scanNat_tab, scanTok_tab,
    scanTok_tok_append k.data [] hk.1 hk.2, scanTok_nil]

lemma sscanfLine_noSeq (e : Event) (cs : List Char) (h : scanNat cs = none) :
    sscanfLine e cs = e := by
  unfold sscanfLine
  rw [h]

lemma splitLinesAux_line :
    ∀ (l : List Char) (acc rest : List Char), '\n' ∉ l →
      splitLinesAux acc (l ++ '\n' :: rest)
        = (acc.reverse ++ l) :: splitLinesAux [] rest := by
  intro l
  induction l with
  | nil =>
    intro acc rest _
    simp [splitLinesAux]
  | cons c l ih =>
    intro acc rest h
    have hc : ¬ (c = '\n') := by
      intro hc; exact h (by simp [hc])
    have hstep : splitLinesAux acc ((c :: l) ++ '\n' :: rest)
        = splitLinesAux (c :: acc) (l ++ '\n' :: rest) := by
      rw [List.cons_append]
      simp only [splitLinesAux, hc, if_false]
    rw [hstep, ih (c :: acc) rest (fun hm => h (List.mem_cons_of_mem c hm))]
    simp

lemma splitLines_line (l rest : List Char) (h : '\n' ∉ l) :
    splitLines (l ++ '\n' :: rest) = l :: splitLines rest := by
  unfold splitLines
  rw [splitLinesAux_line l [] rest h]
  simp

lemma splitLines_records :
    ∀ (ls : List (List Char)) (Z : List Char), (∀ l ∈ ls, '\n' ∉ l) →
      splitLines ((ls.map (fun l => l ++ ['\n'])).flatten ++ Z) = ls ++ splitLines Z := by
  intro ls
  induction ls with
  | nil => intro Z _; simp
  | cons l ls ih =>
    intro Z h
    have hl : '\n' ∉ l := h l (by simp)
    have hstep : ((l :: ls).map (fun l => l ++ ['\n'])).flatten ++ Z
        = l ++ '\n' :: ((ls.map (fun l => l ++ ['\n'])).flatten ++ Z) := by
      simp
    rw [hstep, splitLines_line l _ hl, ih Z (fun m hm => h m (by simp [hm]))]
    simp

lemma renderLine_no_nl (sq : Nat) (e : Event)
    (hk : ∀ c ∈ e.key.data, isWsChar c = false)
    (hv : ∀ c ∈ e.value.data, isWsChar c = false) :
    '\n' ∉ renderLine sq e := by
  unfold renderLine
  intro hm
  simp only [List.mem_append, List.mem_cons] at hm
  have h1 : '\n' ∉ natChars sq :=
    fun h => absurd (natChars_digits sq '\n' h) (by decide)
  have h2 : '\n' ∉ natChars e.eventType :=
    fun h => absurd (natChars_digits e.eventType '\n' h) (by decide)
  have h3 : '\n' ∉ e.key.data := fun h => absurd (hk '\n' h) (by decide)
  have h4 : '\n' ∉ e.value.data := fun h => absurd (hv '\n' h) (by decide)
  have h5 : ¬ ('\n' = '\t') := by decide
  tauto

lemma sscanfLine_record (stale e : Event) (hk : goodTok e.key) (hv : goodTok e.value) :
    sscanfLine stale (recordLine e) = e := by
  unfold recordLine renderLine
  exact sscanfLine_full stale e.sequence e.eventType e.key e.value hk hv

lemma readLines_chunk :
    ∀ (es : List Event) (last : Nat) (stale : Event) (more : List (List Char)),
      (∀ e ∈ es, wfEvent e) →
      seqAscending last (es.map (fun e => e.sequence)) = true →
      readLines last stale (es.map recordLine ++ more)
        = (es ++ (readLines (lastSeqD es last) (es.getLastD stale) more).1,
           (readLines (lastSeqD es last) (es.getLastD stale) more).2) := by
  intro es
  induction es with
  | nil =>
    intro last stale more _ _
    simp [lastSeqD]
  | cons e es ih =>
    intro last stale more hwf hch
    simp only [List.map_cons, seqAscending, Bool.and_eq_true, decide_eq_true_eq] at hch
    obtain ⟨hlt, hch'⟩ := hch
    have hwfe := hwf e (List.mem_cons_self e es)
    have hparse : sscanfLine stale (recordLine e) = e :=
      sscanfLine_record stale e hwfe.1 hwfe.2.1
    have hnle : ¬ (e.sequence ≤ last) := not_le.mpr hlt
    have huq : queryUnescape e.value.data = some e.value.data := hwfe.2.2.1
    simp only [List.map_cons, List.cons_append, readLines, hparse, huq]
    rw [if_neg hnle]
    simp only [List.append_eq]
    have he2 : Event.mk e.sequence e.eventType e.key (String.mk e.value.data) = e := rfl
    rw [he2]
    rw [ih e.sequence e more (fun x hx => hwf x (List.mem_cons_of_mem e hx)) hch']
    have hseq : lastSeqD (e :: es) last = lastSeqD es e.sequence := by
      unfold lastSeqD
      rw [List.map_cons, List.getLastD_cons]
    have hstale : (e :: es).getLastD stale = es.getLastD e := by
      rw [List.getLastD_cons]
    rw [hseq, hstale]

lemma recordLine_no_nl (e : Event) (h : wfEvent e) : '\n' ∉ recordLine e :=
  renderLine_no_nl e.sequence e h.1.2 h.2.1.2

lemma recordLines_no_nl (es : List Event) (h : ∀ e ∈ es, wfEvent e) :
    ∀ l ∈ es.map recordLine, '\n' ∉ l := by
  intro l hl
  obtain ⟨e, he, rfl⟩ := List.mem_map.mp hl
  exact recordLine_no_nl e (h e he)

lemma recordFile_map (es : List Event) :
    es.map (fun e => recordLine e ++ ['\n'])
      = (es.map recordLine).map (fun l => l ++ ['\n']) := by
  rw [List.map_map]
  rfl

/-- Claim C9: the replay check rejects a record only when its sequence
number is at most the running lastSequence; a log whose sequence
numbers are strictly increasing (from the initial counter 0) but
non-contiguous is replayed in full with no error, so gaps are not
detected as corruption. -/
theorem c9_gaps_not_detected (es : List Event)
    (hwf : ∀ e ∈ es, wfEvent e)
    (hch : seqAscending 0 (es.map (fun e => e.sequence)) = true) :
    ReadEvents (recordFile es) = (es, none) := by
  unfold ReadEvents recordFile
  have hnl := recordLines_no_nl es hwf
  have hsp : splitLines (((es.map recordLine).map (fun l => l ++ ['\n'])).flatten)
      = es.map recordLine ++ splitLines [] := by
    have h := splitLines_records (es.map recordLine) [] hnl
    rwa [List.append_nil] at h
  rw [recordFile_map, hsp,
    readLines_chunk es 0 { sequence := 0, eventType := 0, key := "", value := "" }
      (splitLines []) hwf hch]
  simp
  exact ⟨rfl, rfl⟩

/-- Claim C9 witness: the two-record log with sequence numbers 1 and 3
(a gap) replays both records with no error. -/
theorem c9_gaps_not_detected_witness :
    ((∀ e ∈ ([⟨1, 2, "a", "v"⟩, ⟨3, 2, "b", "w"⟩] : List Event), wfEvent e) ∧
      seqAscending 0
        (([⟨1, 2, "a", "v"⟩, ⟨3, 2, "b", "w"⟩] : List Event).map (fun e => e.sequence)) = true) ∧
    ReadEvents (recordFile [⟨1, 2, "a", "v"⟩, ⟨3, 2, "b", "w"⟩])
      = ([⟨1, 2, "a", "v"⟩, ⟨3, 2, "b", "w"⟩], none) :=
  ⟨⟨by decide, by decide⟩,
    c9_gaps_not_detected [⟨1, 2, "a", "v"⟩, ⟨3, 2, "b", "w"⟩] (by decide) (by decide)⟩

/-- Claim C2: replaying a log in which a record's sequence number is at
most the previous record's (here: well-formed records, an ascending
prefix pre, then the offending record bad, then arbitrary trailing
bytes) fails with the out-of-sequence recovery error at that record and
emits exactly the records before it, so nothing after the offending
record is ever applied to the store. -/
theorem c2_out_of_order_aborts (pre : List Event) (bad : Event) (trailing : List Char)
    (hwf : ∀ e ∈ pre, wfEvent e) (hbad : wfEvent bad)
    (hch : seqAscending 0 (pre.map (fun e => e.sequence)) = true)
    (hle : bad.sequence ≤ lastSeqD pre 0) :
    ReadEvents (recordFile (pre ++ [bad]) ++ trailing)
      = (pre, some GoError.outOfSequence) := by
  unfold ReadEvents recordFile
  have hwfall : ∀ e ∈ pre ++ [bad], wfEvent e := by
    intro e he
    rcases List.mem_append.mp he with h | h
    · exact hwf e h
    · rw [List.mem_singleton.mp h]; exact hbad
  have hnl := recordLines_no_nl (pre ++ [bad]) hwfall
  have hsp := splitLines_records ((pre ++ [bad]).map recordLine) trailing hnl
  have hlines : (pre ++ [bad]).map recordLine ++ splitLines trailing
      = pre.map recordLine ++ (recordLine bad :: splitLines trailing) := by
    simp
  have hr : readLines (lastSeqD pre 0)
      (pre.getLastD { sequence := 0, eventType := 0, key := "", value := "" })
      (recordLine bad :: splitLines trailing) = ([], some GoError.outOfSequence) := by
    simp only [readLines,
      sscanfLine_record _ bad hbad.1 hbad.2.1]
    rw [if_pos hle]
  rw [recordFile_map, hsp, hlines,
    readLines_chunk pre 0 { sequence := 0, eventType := 0, key := "", value := "" }
      (recordLine bad :: splitLines trailing) hwf hch, hr]
  simp

/-- Claim C2 witness: a log whose second record repeats sequence number
1 replays only the first record and fails with the out-of-sequence
error. -/
theorem c2_out_of_order_aborts_witness :
    ((∀ e ∈ ([⟨1, 2, "a", "v"⟩] : List Event), wfEvent e) ∧
      wfEvent ⟨1, 1, "b", "w"⟩ ∧
      seqAscending 0 (([⟨1, 2, "a", "v"⟩] : List Event).map (fun e => e.sequence)) = true ∧
      (⟨1, 1, "b", "w"⟩ : Event).sequence ≤ lastSeqD [⟨1, 2, "a", "v"⟩] 0) ∧
    ReadEvents (recordFile ([⟨1, 2, "a", "v"⟩] ++ [⟨1, 1, "b", "w"⟩]) ++ [])
      = ([⟨1, 2, "a", "v"⟩], some GoError.outOfSequence) :=
  ⟨⟨by decide, by decide, by decide, by decide⟩,
    c2_out_of_order_aborts [⟨1, 2, "a", "v"⟩] ⟨1, 1, "b", "w"⟩ []
      (by decide) (by decide) (by decide) (by decide)⟩

lemma lastSeqD_getLastD : ∀ (es : List Event) (d : Event),
    lastSeqD es d.sequence = (es.getLastD d).sequence := by
  intro es
  induction es with
  | nil => intro d; rfl
  | cons e es ih =>
    intro d
    unfold lastSeqD at ih ⊢
    rw [List.map_cons, List.getLastD_cons, List.getLastD_cons]
    exact ih e

/-- Claim C5 counterexample: in the replayed log whose second record
has the unparsable event-type field zz, replay does not fail with a
parse error; the record is emitted anyway (with the stale previous
key and value filling its unparsed fields) and replay ends with no
error at all, contradicting the claim that a malformed record fails
recovery immediately and that no subsequent record is emitted. -/
theorem c5_malformed_not_rejected_counterexample :
    ReadEvents ("1\t2\ta\tv\n7\tzz\tk\tw\n").data
      = ([⟨1, 2, "a", "v"⟩, ⟨7, 2, "a", "v"⟩], none) := by decide

/-- Claim C5 amended: ReadEvents ignores the Sscanf error, so a
malformed record is never reported as a parse error.  A record whose
sequence-number field cannot be parsed does abort replay — the stale
previous sequence number trips the out-of-sequence check — with no
further record emitted; but a record whose sequence number parses and
whose later fields are malformed is emitted with stale fields and
replay continues (see the counterexample). -/
theorem c5_unparsable_sequence_field_fails (pre : List Event)
    (badline trailing : List Char)
    (hwf : ∀ e ∈ pre, wfEvent e)
    (hch : seqAscending 0 (pre.map (fun e => e.sequence)) = true)
    (hscan : scanNat badline = none) (hnlb : '\n' ∉ badline) :
    ReadEvents (recordFile pre ++ (badline ++ '\n' :: trailing))
      = (pre, some GoError.outOfSequence) := by
  unfold ReadEvents recordFile
  have hnl := recordLines_no_nl pre hwf
  have hsp := splitLines_records (pre.map recordLine) (badline ++ '\n' :: trailing) hnl
  have hss : (pre.getLastD { sequence := 0, eventType := 0, key := "", value := "" }).sequence
      = lastSeqD pre 0 :=
    (lastSeqD_getLastD pre { sequence := 0, eventType := 0, key := "", value := "" }).symm
  have hr : readLines (lastSeqD pre 0)
      (pre.getLastD { sequence := 0, eventType := 0, key := "", value := "" })
      (badline :: splitLines trailing) = ([], some GoError.outOfSequence) := by
    simp only [readLines, sscanfLine_noSeq _ badline hscan]
    rw [if_pos (le_of_eq hss)]
  rw [recordFile_map, hsp, splitLines_line badline trailing hnlb,
    readLines_chunk pre 0 { sequence := 0, eventType := 0, key := "", value := "" }
      (badline :: splitLines trailing) hwf hch, hr]
  simp

/-- Claim C5 amended witness: replaying the single unparsable line zz
fails immediately with the out-of-sequence error and emits nothing. -/
theorem c5_unparsable_sequence_field_fails_witness :
    ((∀ e ∈ ([] : List Event), wfEvent e) ∧
      seqAscending 0 (([] : List Event).map (fun e => e.sequence)) = true ∧
      scanNat ("zz").data = none ∧ '\n' ∉ ("zz").data) ∧
    ReadEvents (recordFile [] ++ (("zz").data ++ '\n' :: []))
      = ([], some GoError.outOfSequence) :=
  ⟨⟨by decide, by decide, by decide, by decide⟩,
    c5_unparsable_sequence_field_fails [] ("zz").data []
      (by decide) (by decide) (by decide) (by decide)⟩

/-- Claim C7: replaying the exact two-line log file consisting of a
Put of x=42 (kind code 2) and a Delete of x (kind code 1) succeeds and
leaves the store empty.  (The delete line's empty value field fails the
%s verb and keeps the stale value 42, but Delete ignores the value.) -/
theorem c7_two_line_replay_empty :
    (ReadEvents ("1\t2\tx\t42\n2\t1\tx\t\n").data).2 = none ∧
    ((ReadEvents ("1\t2\tx\t42\n2\t1\tx\t\n").data).1).foldl applyEvent emptyKVS
      = emptyKVS := by
  constructor
  · decide
  · have hev : (ReadEvents ("1\t2\tx\t42\n2\t1\tx\t\n").data).1
        = [⟨1, 2, "x", "42"⟩, ⟨2, 1, "x", "42"⟩] := by decide
    rw [hev]
    funext q
    by_cases hq : q = "x" <;>
      simp [List.foldl, applyEvent, EventDelete, EventPut, KVS.Put, KVS.Delete,
        emptyKVS, hq]

lemma enqueueOps_go : ∀ (ops : List Op) (q : List Event),
    ops.foldl
      (fun q op =>
        match op with
        | Op.put k v => WritePut q k v
        | Op.del k => WriteDelete q k) q
      = q ++ ops.map opEvent := by
  intro ops
  induction ops with
  | nil => intro q; simp
  | cons op ops ih =>
    intro q
    rw [List.foldl_cons, ih]
    cases op with
    | put k v => simp [WritePut, opEvent]
    | del k => simp [WriteDelete, opEvent]

lemma enqueueOps_eq (ops : List Op) : enqueueOps ops = ops.map opEvent := by
  unfold enqueueOps
  rw [enqueueOps_go]
  simp

lemma runDrain_readback :
    ∀ (ops : List Op) (last : Nat) (stale : Event) (s : KVS),
      (∀ op ∈ ops, goodOp op) → last + ops.length < U64 → unescId stale.value →
      ((readLines last stale (splitLines (drainContent
          (runDrain last ((ops.map opEvent).map (fun e => (e, true))))))).2 = none ∧
       ((readLines last stale (splitLines (drainContent
          (runDrain last ((ops.map opEvent).map (fun e => (e, true))))))).1).foldl applyEvent s
         = applyOps s ops) := by
  intro ops
  induction ops with
  | nil =>
    intro last stale s _ _ _
    exact ⟨rfl, rfl⟩
  | cons op ops ih =>
    intro last stale s hgood hlen hid
    simp only [List.length_cons] at hlen
    have hop : goodOp op := hgood op (List.mem_cons_self op ops)
    have hgood' : ∀ x ∈ ops, goodOp x := fun x hx => hgood x (List.mem_cons_of_mem op hx)
    have h1 : last + 1 < U64 := by omega
    have hsq : bumpSeq last = last + 1 := by
      unfold bumpSeq
      exact Nat.mod_eq_of_lt h1
    have htr : runDrain last (((op :: ops).map opEvent).map (fun e => (e, true)))
        = (bumpSeq last, opEvent op, true)
          :: runDrain (bumpSeq last) ((ops.map opEvent).map (fun e => (e, true))) := rfl
    have hcontent : drainContent ((bumpSeq last, opEvent op, true)
          :: runDrain (bumpSeq last) ((ops.map opEvent).map (fun e => (e, true))))
        = renderLine (bumpSeq last) (opEvent op) ++ '\n'
            :: drainContent (runDrain (bumpSeq last)
                ((ops.map opEvent).map (fun e => (e, true)))) := by
      unfold drainContent renderEvt
      simp
    have hnl : '\n' ∉ renderLine (bumpSeq last) (opEvent op) := by
      cases op with
      | put k v => exact renderLine_no_nl _ _ hop.1.2 hop.2.1.2
      | del k =>
        exact renderLine_no_nl _ _ hop.2 (fun c hc => absurd hc (List.not_mem_nil c))
    have hsplit := splitLines_line (renderLine (bumpSeq last) (opEvent op))
      (drainContent (runDrain (bumpSeq last) ((ops.map opEvent).map (fun e => (e, true)))))
      hnl
    rw [htr, hcontent, hsplit, hsq]
    cases op with
    | put k v =>
      have hparse : sscanfLine stale (renderLine (last + 1) (opEvent (Op.put k v)))
          = Event.mk (last + 1) EventPut k v :=
        sscanfLine_full stale (last + 1) EventPut k v hop.1 hop.2.1
      simp only [readLines, hparse]
      have hcond : ¬ ((Event.mk (last + 1) EventPut k v).sequence ≤ last) := by
        show ¬ (last + 1 ≤ last)
        omega
      rw [if_neg hcond]
      have huq : queryUnescape (Event.mk (last + 1) EventPut k v).value.data
          = some v.data := hop.2.2
      simp only [huq]
      have he2 : Event.mk (last + 1) EventPut k (String.mk v.data)
          = Event.mk (last + 1) EventPut k v := rfl
      rw [he2]
      have IH := ih (last + 1) (Event.mk (last + 1) EventPut k v) ((KVS.Put s k v).1)
        hgood' (by omega) hop.2.2
      refine ⟨IH.1, ?_⟩
      rw [List.foldl_cons]
      have happ : applyEvent s (Event.mk (last + 1) EventPut k v) = (KVS.Put s k v).1 := by
        simp [applyEvent, EventPut, EventDelete]
      rw [happ, IH.2]
      rfl
    | del k =>
      have hparse : sscanfLine stale (renderLine (last + 1) (opEvent (Op.del k)))
          = Event.mk (last + 1) EventDelete k stale.value :=
        sscanfLine_noValue stale (last + 1) EventDelete k hop
      simp only [readLines, hparse]
      have hcond : ¬ ((Event.mk (last + 1) EventDelete k stale.value).sequence ≤ last) := by
        show ¬ (last + 1 ≤ last)
        omega
      rw [if_neg hcond]
      have huq : queryUnescape (Event.mk (last + 1) EventDelete k stale.value).value.data
          = some stale.value.data := hid
      simp only [huq]
      have he2 : Event.mk (last + 1) EventDelete k (String.mk stale.value.data)
          = Event.mk (last + 1) EventDelete k stale.value := rfl
      rw [he2]
      have IH := ih (last + 1) (Event.mk (last + 1) EventDelete k stale.value)
        ((KVS.Delete s k).1) hgood' (by omega) hid
      refine ⟨IH.1, ?_⟩
      rw [List.foldl_cons]
      have happ : applyEvent s (Event.mk (last + 1) EventDelete k stale.value)
          = (KVS.Delete s k).1 := by
        simp [applyEvent, EventDelete]
      rw [happ, IH.2]
      rfl

/-- Claim C1 counterexample: the round-trip fails as stated for the
single operation put a with value + (a value Go writes verbatim but
QueryUnescape rewrites to a space on replay): the replayed store maps
a to the space string while the directly built store maps a to +, so
the two stores differ. -/
theorem c1_roundtrip_counterexample :
    ((ReadEvents (drainContent (runDrain 0
        ((enqueueOps [Op.put "a" "+"]).map (fun e => (e, true)))))).1).foldl
        applyEvent emptyKVS "a" = some " " ∧
    applyOps emptyKVS [Op.put "a" "+"] "a" = some "+" ∧
    ((ReadEvents (drainContent (runDrain 0
        ((enqueueOps [Op.put "a" "+"]).map (fun e => (e, true)))))).1).foldl
        applyEvent emptyKVS
      ≠ applyOps emptyKVS [Op.put "a" "+"] := by
  have h1 : ((ReadEvents (drainContent (runDrain 0
      ((enqueueOps [Op.put "a" "+"]).map (fun e => (e, true)))))).1).foldl
      applyEvent emptyKVS "a" = some " " := by decide
  have h2 : applyOps emptyKVS [Op.put "a" "+"] "a" = some "+" := by decide
  exact ⟨h1, h2, fun h =>
    absurd (h1.symm.trans ((congrFun h "a").trans h2)) (by decide)⟩

/-- Claim C1 amended: serializing N put/delete operations through the
write path (WritePut/WriteDelete drained by Run with every append
succeeding) and replaying the resulting file with ReadEvents, applying
each replayed event to an empty store, reproduces the store obtained by
applying the operations directly — provided N < 2^64, every key is a
nonempty string without whitespace characters, and every put value is a
nonempty whitespace-free string left unchanged by query-unescaping (in
particular free of the percent and plus characters); without the value
restriction the round-trip fails (see the counterexample). -/
theorem c1_roundtrip_token_safe (ops : List Op)
    (hgood : ∀ op ∈ ops, goodOp op) (hlen : ops.length < U64) :
    (ReadEvents (drainContent (runDrain 0
        ((enqueueOps ops).map (fun e => (e, true)))))).2 = none ∧
    ((ReadEvents (drainContent (runDrain 0
        ((enqueueOps ops).map (fun e => (e, true)))))).1).foldl applyEvent emptyKVS
      = applyOps emptyKVS ops := by
  unfold ReadEvents
  rw [enqueueOps_eq]
  exact runDrain_readback ops 0
    { sequence := 0, eventType := 0, key := "", value := "" }
    emptyKVS hgood (by omega) rfl

/-- Claim C1 amended witness: the three operations put a v, delete a,
put b w round-trip exactly. -/
theorem c1_roundtrip_token_safe_witness :
    ((∀ op ∈ ([Op.put "a" "v", Op.del "a", Op.put "b" "w"] : List Op), goodOp op) ∧
      ([Op.put "a" "v", Op.del "a", Op.put "b" "w"] : List Op).length < U64) ∧
    ((ReadEvents (drainContent (runDrain 0
        ((enqueueOps [Op.put "a" "v", Op.del "a", Op.put "b" "w"]).map
          (fun e => (e, true)))))).2 = none ∧
     ((ReadEvents (drainContent (runDrain 0
        ((enqueueOps [Op.put "a" "v", Op.del "a", Op.put "b" "w"]).map
          (fun e => (e, true)))))).1).foldl applyEvent emptyKVS
        = applyOps emptyKVS [Op.put "a" "v", Op.del "a", Op.put "b" "w"]) :=
  ⟨⟨by decide, by decide⟩,
    c1_roundtrip_token_safe [Op.put "a" "v", Op.del "a", Op.put "b" "w"]
      (by decide) (by decide)⟩

lemma runDrain_seqs : ∀ (l : List (Event × Bool)) (last : Nat),
    last + l.length < U64 →
    (runDrain last l).map (fun t => t.1) = List.range' (last + 1) l.length := by
  intro l
  induction l with
  | nil => intro last _; rfl
  | cons p l ih =>
    intro last hlen
    simp only [List.length_cons] at hlen
    obtain ⟨e, ok⟩ := p
    have hsq : bumpSeq last = last + 1 := by
      unfold bumpSeq
      exact Nat.mod_eq_of_lt (by omega)
    simp only [runDrain, List.map_cons]
    rw [hsq, ih (last + 1) (by omega)]
    rfl

lemma runDrain_events : ∀ (l : List (Event × Bool)) (last : Nat),
    (runDrain last l).map (fun t => t.2.1) = l.map Prod.fst := by
  intro l
  induction l with
  | nil => intro last; rfl
  | cons p l ih =>
    intro last
    obtain ⟨e, ok⟩ := p
    simp only [runDrain, List.map_cons, ih]

lemma runDrain_append : ∀ (l1 l2 : List (Event × Bool)) (last : Nat),
    runDrain last (l1 ++ l2)
      = runDrain last l1 ++ runDrain (seqAfter last l1.length) l2 := by
  intro l1
  induction l1 with
  | nil => intro l2 last; rfl
  | cons p l1 ih =>
    intro l2 last
    obtain ⟨e, ok⟩ := p
    show (bumpSeq last, e, ok) :: runDrain (bumpSeq last) (l1 ++ l2) = _
    rw [ih l2 (bumpSeq last)]
    rfl

/-- Claim C3: in the armed phase the worker assigns lastSequence+1 to
every append, so from a fresh empty log (counter 0) the attempted
appends carry sequence numbers 1, 2, 3, ... — strictly increasing with
no gaps — for any queue of intents (whatever their outcomes), as long
as fewer than 2^64 appends occur (the uint64 counter wraps there). -/
theorem c3_fresh_log_sequences (l : List (Event × Bool)) (hlen : l.length < U64) :
    (runDrain 0 l).map (fun t => t.1) = List.range' 1 l.length :=
  runDrain_seqs l 0 (by omega)

/-- Claim C3 witness: three enqueued intents are appended with the
sequence numbers 1, 2, 3. -/
theorem c3_fresh_log_sequences_witness :
    (([(opEvent (Op.put "a" "v"), true), (opEvent (Op.del "b"), true),
        (opEvent (Op.put "c" "w"), true)] : List (Event × Bool)).length < U64) ∧
    (runDrain 0 [(opEvent (Op.put "a" "v"), true), (opEvent (Op.del "b"), true),
        (opEvent (Op.put "c" "w"), true)]).map (fun t => t.1)
      = List.range' 1 ([(opEvent (Op.put "a" "v"), true), (opEvent (Op.del "b"), true),
        (opEvent (Op.put "c" "w"), true)] : List (Event × Bool)).length :=
  ⟨by decide,
    c3_fresh_log_sequences [(opEvent (Op.put "a" "v"), true),
      (opEvent (Op.del "b"), true), (opEvent (Op.put "c" "w"), true)] (by decide)⟩

/-- Claim C4: when the append of an enqueued event fails, the worker
pushes the failure onto the error queue, does not retry it and does not
exit: the drain trace is the trace before the failure, then the failed
attempt with its assigned sequence number, then the full drain of the
remaining intents; the failure appears on the error queue; and the
attempted events are exactly all enqueued intents in order, each
dequeued and attempted exactly once. -/
theorem c4_failed_append_reported_worker_continues
    (last : Nat) (l1 : List (Event × Bool)) (e : Event) (l2 : List (Event × Bool)) :
    runDrain last (l1 ++ (e, false) :: l2)
      = runDrain last l1
        ++ (bumpSeq (seqAfter last l1.length), e, false)
          :: runDrain (bumpSeq (seqAfter last l1.length)) l2 ∧
    (bumpSeq (seqAfter last l1.length), e)
      ∈ drainErrors (runDrain last (l1 ++ (e, false) :: l2)) ∧
    (runDrain last (l1 ++ (e, false) :: l2)).map (fun t => t.2.1)
      = l1.map Prod.fst ++ e :: l2.map Prod.fst := by
  have h1 : runDrain last (l1 ++ (e, false) :: l2)
      = runDrain last l1
        ++ (bumpSeq (seqAfter last l1.length), e, false)
          :: runDrain (bumpSeq (seqAfter last l1.length)) l2 := by
    rw [runDrain_append l1 ((e, false) :: l2) last]
    rfl
  refine ⟨h1, ?_, ?_⟩
  · rw [h1]
    unfold drainErrors
    apply List.mem_filterMap.mpr
    refine ⟨(bumpSeq (seqAfter last l1.length), e, false), ?_, rfl⟩
    exact List.mem_append.mpr (Or.inr (List.mem_cons_self _ _))
  · rw [runDrain_events]
    simp

lemma applyOp_frame (s : KVS) (op : Op) (q : String) (h : q ≠ opKey op) :
    applyOp s op q = s q := by
  cases op with
  | put k v => exact if_neg h
  | del k => exact if_neg h

/-- Claim C10: for distinct keys, Put and Delete leave the value mapped
at the other key unchanged, and Get leaves the entire mapping
unchanged (it only reads under the shared lock). -/
theorem c10_frame (s : KVS) (k k' v : String) (h : k' ≠ k) :
    (KVS.Put s k v).1 k' = s k' ∧ (KVS.Delete s k).1 k' = s k' ∧
    (KVS.Get s k).2 = s :=
  ⟨if_neg h, if_neg h, rfl⟩

/-- Claim C10 witness at the concrete keys a and b on the empty store. -/
theorem c10_frame_witness :
    (("b" : String) ≠ "a") ∧
    ((KVS.Put emptyKVS "a" "v").1 "b" = emptyKVS "b" ∧
     (KVS.Delete emptyKVS "a").1 "b" = emptyKVS "b" ∧
     (KVS.Get emptyKVS "a").2 = emptyKVS) :=
  ⟨by decide, c10_frame emptyKVS "a" "b" "v" (by decide)⟩

lemma get_after_ops : ∀ (ops : List Op) (s : KVS) (k : String),
    (KVS.Get (applyOps s ops) k).1
      = match lastMutOf k ops with
        | some (Op.put _ v) => Except.ok v
        | some (Op.del _) => Except.error GoError.ErrorNoSuchKey
        | none => (KVS.Get s k).1 := by
  intro ops
  induction ops with
  | nil => intro s k; rfl
  | cons op ops ih =>
    intro s k
    show (KVS.Get (applyOps (applyOp s op) ops) k).1 = _
    rw [ih (applyOp s op) k]
    cases hm : lastMutOf k ops with
    | some m =>
      have hcons : lastMutOf k (op :: ops) = some m := by
        simp [lastMutOf, hm]
      rw [hcons]
      cases m <;> rfl
    | none =>
      have hcons : lastMutOf k (op :: ops)
          = (if opKey op = k then some op else none) := by
        simp [lastMutOf, hm]
      rw [hcons]
      by_cases hk : opKey op = k
      · simp only [if_pos hk]
        cases op with
        | put k2 v =>
          have hk2 : k2 = k := hk
          subst hk2
          simp [applyOp, KVS.Put, KVS.Get]
        | del k2 =>
          have hk2 : k2 = k := hk
          subst hk2
          simp [applyOp, KVS.Delete, KVS.Get]
      · simp only [if_neg hk]
        have hfr := applyOp_frame s op k (fun he => hk he.symm)
        simp [KVS.Get, hfr]

/-- Claim C6: after any sequence of put/delete operations on an empty
store, Get k returns the value of the most recent Put of k when the
last mutation of k was a Put, and the ErrorNoSuchKey error when the
last mutation of k was a Delete or k was never mutated. -/
theorem c6_get_last_mutation (ops : List Op) (k : String) :
    (KVS.Get (applyOps emptyKVS ops) k).1
      = match lastMutOf k ops with
        | some (Op.put _ v) => Except.ok v
        | some (Op.del _) => Except.error GoError.ErrorNoSuchKey
        | none => Except.error GoError.ErrorNoSuchKey := by
  rw [get_after_ops ops emptyKVS k]
  cases hm : lastMutOf k ops with
  | some m => cases m <;> rfl
  | none => rfl

/-- Claim C8 counterexample: a put and a delete with the empty key are
not rejected — Put returns the nil error and stores the pair, Delete
returns the nil error, and WritePut/WriteDelete enqueue the empty-key
events for the log; no ValidationError exists anywhere in the code. -/
theorem c8_empty_key_accepted_counterexample :
    (KVS.Put emptyKVS "" "v").2 = none ∧
    (KVS.Put emptyKVS "" "v").1 "" = some "v" ∧
    (KVS.Delete emptyKVS "").2 = none ∧
    WritePut [] "" "v" = [⟨0, EventPut, "", "v"⟩] ∧
    WriteDelete [] "" = [⟨0, EventDelete, "", ""⟩] :=
  ⟨rfl, by decide, rfl, rfl, rfl⟩

/-- Claim C8 amended: the store performs no key validation at all:
every put and delete — the empty key included — succeeds with the nil
error, and the corresponding event is enqueued for the log
unconditionally. -/
theorem c8_no_validation (s : KVS) (q : List Event) (k v : String) :
    (KVS.Put s k v).2 = none ∧ (KVS.Delete s k).2 = none ∧
    WritePut q k v = q ++ [⟨0, EventPut, k, v⟩] ∧
    WriteDelete q k = q ++ [⟨0, EventDelete, k, ""⟩] :=
  ⟨rfl, rfl, rfl, rfl⟩
